import Mathlib

/-!
Verification development for the wordle solver in solver.py.
The Solver class is embedded as a Lean structure together with executable
versions of its methods; the theorems below settle the stated properties of
the specification against these definitions.
-/

namespace WordleSolver

/-- Tag of one letter of a guess evaluation: correct, present, or absent. -/
inductive Tag
  | correct
  | present
  | absent
deriving DecidableEq

/-- Error raised by get_min_weight_count when the candidate list is empty;
models the Python IndexError raised in solver.py lines 89 to 91. -/
inductive SolverError
  | noWordsLeft
deriving DecidableEq

/-- Words are sequences of characters. -/
abbrev Word := List Char

/-- State of the Solver class in solver.py: confirmed letters per position,
present letters mapped to the set of positions they are excluded from,
absent letters, and the current weighted candidate list. -/
structure Solver where
  correct_letters : List (Option Char)
  present_letters : List (Char × List Nat)
  absent_letters : List Char
  words : List (Word × Int)
deriving DecidableEq

/-- Unit cost Levenshtein edit distance, the embedding of the call to
Levenshtein.distance in solver.py line 53: the Levenshtein library computes
the standard edit distance with unit cost insertions, deletions and
substitutions, which is Mathlib levenshtein at defaultCost. -/
def lev (a b : Word) : Nat :=
  levenshtein Levenshtein.defaultCost a b

/-- Padded representation of the confirmed letters built in solver.py line 54:
each unknown position is replaced by the placeholder character. -/
def padded (cl : List (Option Char)) : Word :=
  cl.map (fun c => c.getD '0')

/-- Embedding of Solver.get_word_weight (solver.py lines 52 to 60): the edit
distance between the word and the padded confirmed letters, decreased by one
for every key of present_letters that occurs in the word. -/
def get_word_weight (s : Solver) (word : Word) : Int :=
  s.present_letters.foldl
    (fun weight p => if p.1 ∈ word then weight - 1 else weight)
    ((lev word (padded s.correct_letters) : Nat) : Int)

/-- Exclusion set built for an unconfirmed position i in
Solver.update_word_weights (solver.py lines 68 to 71): the letters excluded
at position i through present_letters, together with all absent letters. -/
def buildExclude (s : Solver) (i : Nat) : List Char :=
  (s.present_letters.filter (fun p => decide (i ∈ p.2))).map Prod.fst
    ++ s.absent_letters

/-- Lowercase letter test, the embedding of the regex class of the lowercase
letters used in solver.py line 76 when nothing is excluded at a position. -/
def isLowerAlpha (c : Char) : Bool :=
  decide ('a' ≤ c) && decide (c ≤ 'z')

/-- Match of one position of the regex pattern built in
Solver.update_word_weights (solver.py lines 62 to 79): a confirmed position
matches only the confirmed letter; an unconfirmed position with a nonempty
exclusion set matches any character outside it; an unconfirmed position with
an empty exclusion set matches any lowercase letter. -/
def posMatch (s : Solver) (i : Nat) (c : Char) : Bool :=
  match s.correct_letters.getD i none with
  | some d => c == d
  | none =>
    let ex := buildExclude s i
    if ex.isEmpty then isLowerAlpha c else !(ex.contains c)

/-- Full word match against the five position pattern, the embedding of the
re.match call in solver.py line 83 applied to five letter words. -/
def wordMatches (s : Solver) (w : Word) : Bool :=
  (List.range 5).all (fun i => posMatch s i (w.getD i ' '))

/-- Stable insertion into a list sorted by ascending weight: the new entry
goes after every strictly lighter entry and before entries of equal weight
that stood later in the original list. -/
def insertByWeight (a : Word × Int) : List (Word × Int) → List (Word × Int)
  | [] => [a]
  | b :: l => if b.2 < a.2 then b :: insertByWeight a l else a :: b :: l

/-- Stable sort of a candidate list by ascending weight, the embedding of the
list sort with the weight key in solver.py lines 50 and 86; the Python sort
is stable, and a stable comparison sort on the weight key is insertion sort
up to equality of output. -/
def sortWords (l : List (Word × Int)) : List (Word × Int) :=
  l.foldr insertByWeight []

/-- Embedding of Solver.update_word_weights (solver.py lines 62 to 86): keep
the entries of the current candidate list whose word matches the pattern,
recompute each weight, and sort by weight ascending. The filter runs over
the current list in self.words, not over the full dictionary. -/
def update_word_weights (s : Solver) : Solver :=
  { s with
    words := sortWords
      ((s.words.filter (fun p => wordMatches s p.1)).map
        (fun p => (p.1, get_word_weight s p.1))) }

/-- Final value of the loop variable idx in Solver.get_min_weight_count
(solver.py lines 93 to 98): the index of the first entry whose weight
exceeds the given weight, or the last index when no entry does. -/
def finalIdx (minWeight : Int) : Nat → List (Word × Int) → Nat
  | i, [] => i - 1
  | i, p :: rest => if minWeight < p.2 then i else finalIdx minWeight (i + 1) rest

/-- Embedding of Solver.get_min_weight_count (solver.py lines 88 to 98): on
an empty list the error is raised; otherwise the function returns idx + 1
where idx is the final value of the enumerate loop variable. The Python
expression idx or 0 equals idx, because it is 0 exactly when idx is 0. -/
def get_min_weight_count (l : List (Word × Int)) : Except SolverError Nat :=
  match l with
  | [] => Except.error SolverError.noWordsLeft
  | p :: _ => Except.ok (finalIdx p.2 0 l + 1)

/-- Insertion of position i into the exclusion set of letter c, the embedding
of the setdefault and add calls on present_letters in solver.py line 121. -/
def addExclusion (pl : List (Char × List Nat)) (c : Char) (i : Nat) :
    List (Char × List Nat) :=
  match pl with
  | [] => [(c, [i])]
  | q :: rest =>
    if q.1 = c then (q.1, if i ∈ q.2 then q.2 else q.2 ++ [i]) :: rest
    else q :: addExclusion rest c i

/-- Positions recorded as excluded for letter c: the lookup into the
present_letters mapping. -/
def exclOf (pl : List (Char × List Nat)) (c : Char) : List Nat :=
  ((pl.find? (fun q => q.1 == c)).map Prod.snd).getD []

/-- Update of the solver state for a single position of one evaluation, the
embedding of one iteration of the loops in solver.py lines 117 to 123 and
190 to 195. -/
def recordStep (s : Solver) (g : Word) (ev : List Tag) (i : Nat) : Solver :=
  match ev.getD i Tag.absent with
  | Tag.correct =>
    { s with correct_letters := s.correct_letters.set i (some (g.getD i ' ')) }
  | Tag.present =>
    { s with present_letters := addExclusion s.present_letters (g.getD i ' ') i }
  | Tag.absent =>
    { s with absent_letters :=
        if g.getD i ' ' ∈ s.absent_letters then s.absent_letters
        else s.absent_letters ++ [g.getD i ' '] }

/-- Fold of recordStep over a list of positions. -/
def recordAux (g : Word) (ev : List Tag) : List Nat → Solver → Solver
  | [], s => s
  | i :: rest, s => recordAux g ev rest (recordStep s g ev i)

/-- Recording of one full evaluation of a guess, the embedding of the loops
over the five positions in solver.py lines 117 to 123 and 190 to 195: all
five positions of one evaluation are processed in one call. -/
def recordEvaluation (s : Solver) (g : Word) (ev : List Tag) : Solver :=
  recordAux g ev (List.range 5) s

/-- Evaluation of a guess against the true word by the ground truth comparator
of solve_word (solver.py lines 118 to 123): correct on an exact position
match, present when the letter occurs elsewhere in the word, absent
otherwise. -/
def evalAgainst (word g : Word) : List Tag :=
  (List.range 5).map (fun i =>
    if g.getD i ' ' = word.getD i ' ' then Tag.correct
    else if g.getD i ' ' ∈ word then Tag.present
    else Tag.absent)

/-- Python equality between a string and a pair: in solver.py line 112 the
membership test compares the guess string with the pairs stored in
self.words, and equality between a string and a tuple is always False in
Python, whatever the operands are. -/
def pyStrTupleEq (_g : Word) (_p : Word × Int) : Bool :=
  false

/-- Embedding of the Python membership test of the lowered guess against
self.words in solver.py line 112: some element compares equal under Python
equality. -/
def pyMemWords (g : Word) (l : List (Word × Int)) : Bool :=
  l.any (fun p => pyStrTupleEq g p)

/-- Embedding of one iteration of the solve_word loop (solver.py lines 106 to
131) for a manually entered guess other than the auto sentinel: a guess that
fails the validity test in line 112 is rejected and the state and the guess
count stay unchanged; otherwise the evaluation against the true word is
recorded and the count advances. -/
def manualGuessStep (s : Solver) (n : Nat) (g : Word) (word : Word) :
    Solver × Nat :=
  if g.length ≠ 5 ∧ pyMemWords (g.map Char.toLower) s.words = false then (s, n)
  else (recordEvaluation s g (evalAgainst word g), n + 1)

/-- Embedding of the Solver constructor (solver.py lines 39 to 50) with the
word list passed as a parameter, reading the file being peripheral input
handling: empty knowledge, initial weights computed against the empty
knowledge, candidate list sorted by weight. -/
def mkSolver (dict : List Word) : Solver :=
  let s : Solver :=
    { correct_letters := [none, none, none, none, none]
      present_letters := []
      absent_letters := []
      words := [] }
  { s with words := sortWords (dict.map (fun w => (w, get_word_weight s w))) }

/-- Count of leading entries sharing the first weight, written from the spec
sentence: find the count of leading entries sharing the minimum weight value,
the first weight of the ranked list. Used to compare the spec against
get_min_weight_count. -/
def specLeadingMinCount (l : List (Word × Int)) : Nat :=
  match l with
  | [] => 0
  | p :: _ => (l.takeWhile (fun q => q.2 == p.2)).length

/-- Ranked candidate list recomputed from the full dictionary, written from
the spec sentence: the working candidate set is recomputed from the full
dictionary and the current KnowledgeBase on each filtering step. Used to
compare the spec against update_word_weights. -/
def specRankFromDict (dict : List Word) (s : Solver) : List (Word × Int) :=
  sortWords ((dict.filter (fun w => wordMatches s w)).map
    (fun w => (w, get_word_weight s w)))

/-- Sample solver state with empty knowledge, used by concrete instances. -/
def sampleSolver : Solver :=
  { correct_letters := [none, none, none, none, none]
    present_letters := []
    absent_letters := []
    words := [] }

/-- Dictionary of the concrete filtering scenario. -/
def scenarioDict : List Word := [['a','a','a','a','a'], ['b','b','b','b','b']]

/-- Evaluation marking every position absent. -/
def allAbsentTags : List Tag :=
  [Tag.absent, Tag.absent, Tag.absent, Tag.absent, Tag.absent]

/-- Evaluation marking every position correct. -/
def allCorrectTags : List Tag :=
  [Tag.correct, Tag.correct, Tag.correct, Tag.correct, Tag.correct]

/-- State of the filtering scenario after recording an evaluation marking
every letter of aaaaa absent and filtering once. -/
def scenarioS1 : Solver :=
  update_word_weights
    (recordEvaluation (mkSolver scenarioDict) ['a','a','a','a','a'] allAbsentTags)

/-- State of the filtering scenario after further recording an evaluation
marking every letter of aaaaa correct and filtering again. -/
def scenarioS2 : Solver :=
  update_word_weights
    (recordEvaluation scenarioS1 ['a','a','a','a','a'] allCorrectTags)

/-- Evaluation marking the first position correct and the rest absent. -/
def corrFirstTags : List Tag :=
  [Tag.correct, Tag.absent, Tag.absent, Tag.absent, Tag.absent]

/-- Solver state for the weight direction instance: first letter confirmed to
be the letter a, letter b known present and excluded from position 1, letter
z known absent. -/
def c9Solver : Solver :=
  { correct_letters := [some 'a', none, none, none, none]
    present_letters := [('b', [1])]
    absent_letters := ['z']
    words := [] }

/-! ## Helper lemmas -/

theorem pyMemWords_false (g : Word) (l : List (Word × Int)) :
    pyMemWords g l = false := by
  simp [pyMemWords, pyStrTupleEq]

theorem mem_insertByWeight (a q : Word × Int) (l : List (Word × Int)) :
    q ∈ insertByWeight a l ↔ q = a ∨ q ∈ l := by
  induction l with
  | nil => simp [insertByWeight]
  | cons b tl ih =>
    simp only [insertByWeight]
    by_cases hb : b.2 < a.2
    · simp only [if_pos hb, List.mem_cons, ih]
      tauto
    · simp only [if_neg hb, List.mem_cons]

theorem mem_sortWords (q : Word × Int) (l : List (Word × Int)) :
    q ∈ sortWords l ↔ q ∈ l := by
  induction l with
  | nil => simp [sortWords]
  | cons b tl ih =>
    simp only [sortWords, List.foldr_cons] at ih ⊢
    rw [mem_insertByWeight, ih, List.mem_cons]

/-! ## Claim theorems -/

/-- C6: for the empty candidate list, get_min_weight_count fails with the
deliberately raised empty candidate set error before any index access, while
on every nonempty list it returns a count; the error is surfaced to the
caller rather than an out of bounds access or silent continuation. -/
theorem c6_empty_list_error :
    get_min_weight_count ([] : List (Word × Int))
        = Except.error SolverError.noWordsLeft
      ∧ ∀ (p : Word × Int) (l : List (Word × Int)),
          ∃ n, get_min_weight_count (p :: l) = Except.ok n :=
  ⟨rfl, fun p l => ⟨finalIdx p.2 0 (p :: l) + 1, rfl⟩⟩

/-- C1: on the sorted candidate list [(aaaaa, 1), (ababa, 2)] exactly one
leading entry carries the minimum weight, but get_min_weight_count returns 2,
so the random selection prefix in solve_word contains an entry of strictly
larger weight; the computed prefix length therefore does not equal the number
of leading minimum weight entries. -/
theorem c1_min_weight_count_overcounts :
    get_min_weight_count [(['a','a','a','a','a'], 1), (['a','b','a','b','a'], 2)]
        = Except.ok 2
      ∧ specLeadingMinCount
          [(['a','a','a','a','a'], 1), (['a','b','a','b','a'], 2)] = 1 :=
  ⟨rfl, by decide⟩

/-- C2 counterexample: in the concrete scenario the candidate list kept by
the code after the second update_word_weights is empty, while the ranked list
recomputed from the full original dictionary under the same final knowledge
still contains the word aaaaa; the code therefore prunes the previous reduced
list and does not recompute from the full dictionary. -/
theorem c2_counterexample_incremental :
    scenarioS2.words = []
      ∧ specRankFromDict scenarioDict scenarioS2 = [(['a','a','a','a','a'], 0)]
      ∧ scenarioS2.words ≠ specRankFromDict scenarioDict scenarioS2 := by
  refine ⟨by decide, by decide, by decide⟩

/-- C2 amended: the working candidate list after update_word_weights is
computed incrementally from the previous candidate list, not from the full
dictionary: a word occurs in the updated list exactly when it occurs in the
previous list and matches the current matcher. -/
theorem c2_amended_filter_previous (s : Solver) (w : Word) :
    (∃ q ∈ (update_word_weights s).words, q.1 = w)
      ↔ (∃ p ∈ s.words, p.1 = w) ∧ wordMatches s w = true := by
  simp only [update_word_weights]
  constructor
  · rintro ⟨q, hq, rfl⟩
    rw [mem_sortWords] at hq
    simp only [List.mem_map, List.mem_filter] at hq
    obtain ⟨p, ⟨hp, hm⟩, hq⟩ := hq
    cases hq
    exact ⟨⟨p, hp, rfl⟩, hm⟩
  · rintro ⟨⟨p, hp, rfl⟩, hm⟩
    refine ⟨(p.1, get_word_weight s p.1), ?_, rfl⟩
    rw [mem_sortWords]
    simp only [List.mem_map, List.mem_filter]
    exact ⟨p, ⟨hp, hm⟩, rfl⟩

/-- C7: a manually supplied guess other than the auto sentinel whose length
is not five is rejected locally by the solve_word loop: the solver state,
including the confirmed letters, the present letter exclusions, the absent
letters and the candidate list, is unchanged and the guess count does not
advance, so the loop prompts again at the same count. -/
theorem c7_invalid_length_rejected (s : Solver) (n : Nat) (g word : Word)
    (hg : g ≠ ['0']) (hlen : g.length ≠ 5) :
    manualGuessStep s n g word = (s, n) := by
  rw [manualGuessStep, if_pos ⟨hlen, pyMemWords_false _ _⟩]

/-- C7 witness: the concrete three letter guess abc is rejected with the
state and the count unchanged. -/
theorem c7_invalid_length_rejected_witness :
    manualGuessStep sampleSolver 0 ['a','b','c'] ['a','b','c','d','e']
      = (sampleSolver, 0) :=
  c7_invalid_length_rejected sampleSolver 0 ['a','b','c'] ['a','b','c','d','e']
    (by decide) (by decide)

/-- C10: the membership test of a guess against self.words compares a string
with the stored pairs of word and weight under Python equality and therefore
never holds, so a manually supplied guess other than the auto sentinel is
rejected by the solve_word loop exactly when its length differs from five;
in particular every five letter guess is accepted and recorded even when it
is not a dictionary word. -/
theorem c10_membership_test_vacuous (g : Word) (l : List (Word × Int))
    (s : Solver) (n : Nat) (word : Word) (hg : g ≠ ['0']) :
    pyMemWords g l = false
      ∧ (manualGuessStep s n g word = (s, n) ↔ g.length ≠ 5) := by
  refine ⟨pyMemWords_false g l, ?_, ?_⟩
  · intro h
    by_contra hlen
    rw [manualGuessStep, if_neg (by tauto)] at h
    have := congrArg Prod.snd h
    simp only at this
    omega
  · intro hlen
    rw [manualGuessStep, if_pos ⟨hlen, pyMemWords_false _ _⟩]

/-- C10 witness: the five letter guess zzzzz, not a dictionary word, is not
rejected by the loop on the sample state. -/
theorem c10_membership_test_vacuous_witness :
    pyMemWords ['z','z','z','z','z'] sampleSolver.words = false
      ∧ (manualGuessStep sampleSolver 0 ['z','z','z','z','z']
            ['a','b','c','d','e'] = (sampleSolver, 0)
          ↔ (['z','z','z','z','z'] : Word).length ≠ 5) :=
  c10_membership_test_vacuous ['z','z','z','z','z'] sampleSolver.words
    sampleSolver 0 ['a','b','c','d','e'] (by decide)

/-- C8 counterexample: under an arbitrary feedback sequence, as in the
external feedback mode of solve_wordle, a confirmed position is overwritten
with a different letter: after an evaluation marking the first letter of
abcde correct the first confirmed letter is a, and a later evaluation marking
the first letter of zzzzz correct overwrites it with z. -/
theorem c8_counterexample_overwrite :
    (recordEvaluation sampleSolver ['a','b','c','d','e'] corrFirstTags).correct_letters.getD 0 none
        = some 'a'
      ∧ (recordEvaluation
            (recordEvaluation sampleSolver ['a','b','c','d','e'] corrFirstTags)
            ['z','z','z','z','z'] corrFirstTags).correct_letters.getD 0 none
          = some 'z'
      ∧ ('a' : Char) ≠ 'z' := by
  refine ⟨by decide, by decide, by decide⟩

theorem recordStep_words (s : Solver) (g : Word) (ev : List Tag) (i : Nat) :
    (recordStep s g ev i).words = s.words := by
  cases h : ev.getD i Tag.absent <;> simp only [recordStep, h]

theorem recordStep_correct_length (s : Solver) (g : Word) (ev : List Tag)
    (i : Nat) :
    (recordStep s g ev i).correct_letters.length
      = s.correct_letters.length := by
  cases h : ev.getD i Tag.absent <;> simp only [recordStep, h] <;>
    simp [List.length_set]

theorem recordStep_correct_getD (s : Solver) (g : Word) (ev : List Tag)
    (i j : Nat) :
    (recordStep s g ev i).correct_letters.getD j none
      = if i = j ∧ j < s.correct_letters.length
            ∧ ev.getD i Tag.absent = Tag.correct
        then some (g.getD i ' ')
        else s.correct_letters.getD j none := by
  cases h : ev.getD i Tag.absent with
  | correct =>
    simp only [recordStep, h]
    rw [List.getD_eq_getElem?_getD, List.getD_eq_getElem?_getD,
      List.getElem?_set]
    by_cases hij : i = j
    · subst hij
      by_cases hlt : i < s.correct_letters.length
      · simp [hlt]
      · have : s.correct_letters[i]? = none :=
          List.getElem?_eq_none (by omega)
        simp [hlt, this]
    · simp [hij]
  | present => simp only [recordStep, h]; simp
  | absent => simp only [recordStep, h]; simp

theorem recordStep_absent_mem (s : Solver) (g : Word) (ev : List Tag)
    (i : Nat) (c : Char) :
    c ∈ (recordStep s g ev i).absent_letters
      ↔ c ∈ s.absent_letters
          ∨ (ev.getD i Tag.absent = Tag.absent ∧ g.getD i ' ' = c) := by
  cases h : ev.getD i Tag.absent with
  | correct => simp only [recordStep, h]; simp
  | present => simp only [recordStep, h]; simp
  | absent =>
    simp only [recordStep, h]
    by_cases hm : g.getD i ' ' ∈ s.absent_letters
    · rw [if_pos hm]
      constructor
      · tauto
      · rintro (hc | ⟨-, rfl⟩)
        · exact hc
        · exact hm
    · rw [if_neg hm]
      simp only [List.mem_append, List.mem_singleton]
      tauto

theorem exclOf_cons (q : Char × List Nat) (rest : List (Char × List Nat))
    (c : Char) :
    exclOf (q :: rest) c = if q.1 = c then q.2 else exclOf rest c := by
  by_cases h : q.1 = c
  · simp [exclOf, List.find?_cons_of_pos, h]
  · simp [exclOf, List.find?_cons_of_neg, h]

theorem mem_exclOf_addExclusion (pl : List (Char × List Nat)) (cNew : Char)
    (i : Nat) (c : Char) (j : Nat) :
    j ∈ exclOf (addExclusion pl cNew i) c
      ↔ j ∈ exclOf pl c ∨ (c = cNew ∧ j = i) := by
  induction pl with
  | nil =>
    simp only [addExclusion]
    rw [exclOf_cons]
    by_cases hc : cNew = c
    · subst hc
      rw [if_pos rfl]
      simp [exclOf]
    · rw [if_neg hc]
      have hc2 : ¬ c = cNew := fun h => hc h.symm
      simp [exclOf, hc2]
  | cons q rest ih =>
    by_cases hq : q.1 = cNew
    · rw [addExclusion, if_pos hq]
      by_cases hc : q.1 = c
      · rw [exclOf_cons, exclOf_cons, if_pos hc, if_pos hc]
        have hccn : c = cNew := hc ▸ hq
        by_cases hi : i ∈ q.2
        · rw [if_pos hi]
          constructor
          · tauto
          · rintro (h | ⟨-, rfl⟩)
            · exact h
            · exact hi
        · rw [if_neg hi]
          simp only [List.mem_append, List.mem_singleton]
          tauto
      · rw [exclOf_cons, exclOf_cons, if_neg hc, if_neg hc]
        have : c ≠ cNew := fun h => hc (h ▸ hq)
        tauto
    · rw [addExclusion, if_neg hq]
      by_cases hc : q.1 = c
      · rw [exclOf_cons, exclOf_cons, if_pos hc, if_pos hc]
        have : c ≠ cNew := fun h => hq (hc.symm ▸ h)
        tauto
      · rw [exclOf_cons, exclOf_cons, if_neg hc, if_neg hc]
        exact ih

theorem recordStep_excl_mem (s : Solver) (g : Word) (ev : List Tag)
    (i : Nat) (c : Char) (j : Nat) :
    j ∈ exclOf (recordStep s g ev i).present_letters c
      ↔ j ∈ exclOf s.present_letters c
          ∨ (ev.getD i Tag.absent = Tag.present ∧ c = g.getD i ' ' ∧ j = i) := by
  cases h : ev.getD i Tag.absent with
  | correct => simp only [recordStep, h]; simp
  | present =>
    simp only [recordStep, h]
    rw [mem_exclOf_addExclusion]
    tauto
  | absent => simp only [recordStep, h]; simp

theorem recordAux_words (g : Word) (ev : List Tag) (is : List Nat)
    (s : Solver) :
    (recordAux g ev is s).words = s.words := by
  induction is generalizing s with
  | nil => rfl
  | cons i tl ih => rw [recordAux, ih, recordStep_words]

theorem recordAux_correct_length (g : Word) (ev : List Tag) (is : List Nat)
    (s : Solver) :
    (recordAux g ev is s).correct_letters.length
      = s.correct_letters.length := by
  induction is generalizing s with
  | nil => rfl
  | cons i tl ih => rw [recordAux, ih, recordStep_correct_length]

theorem recordAux_correct_getD (g : Word) (ev : List Tag) (is : List Nat)
    (s : Solver) (j : Nat) :
    (recordAux g ev is s).correct_letters.getD j none
      = if j ∈ is ∧ j < s.correct_letters.length
            ∧ ev.getD j Tag.absent = Tag.correct
        then some (g.getD j ' ')
        else s.correct_letters.getD j none := by
  induction is generalizing s with
  | nil => simp [recordAux]
  | cons i tl ih =>
    rw [recordAux, ih, recordStep_correct_length, recordStep_correct_getD]
    by_cases hij : i = j
    · subst hij
      by_cases hlt : i < s.correct_letters.length <;>
        by_cases hc : ev.getD i Tag.absent = Tag.correct <;>
        by_cases htl : i ∈ tl <;>
        simp_all [List.mem_cons]
    · have hji : ¬ j = i := fun h => hij h.symm
      by_cases htl : j ∈ tl <;> simp [htl, hij, hji, List.mem_cons]

theorem recordAux_absent_mem (g : Word) (ev : List Tag) (is : List Nat)
    (s : Solver) (c : Char) :
    c ∈ (recordAux g ev is s).absent_letters
      ↔ c ∈ s.absent_letters
          ∨ ∃ i ∈ is, ev.getD i Tag.absent = Tag.absent ∧ g.getD i ' ' = c := by
  induction is generalizing s with
  | nil => simp [recordAux]
  | cons i tl ih =>
    rw [recordAux, ih, recordStep_absent_mem, List.exists_mem_cons_iff]
    tauto

theorem recordAux_excl_mem (g : Word) (ev : List Tag) (is : List Nat)
    (s : Solver) (c : Char) (j : Nat) :
    j ∈ exclOf (recordAux g ev is s).present_letters c
      ↔ j ∈ exclOf s.present_letters c
          ∨ ∃ i ∈ is, ev.getD i Tag.absent = Tag.present
              ∧ c = g.getD i ' ' ∧ j = i := by
  induction is generalizing s with
  | nil => simp [recordAux]
  | cons i tl ih =>
    rw [recordAux, ih, recordStep_excl_mem, List.exists_mem_cons_iff]
    tauto

/-- C5: recordEvaluation updates the knowledge exactly as specified: for each
of the five positions of the guess, a correct tag sets the confirmed letter
at that position to the guessed letter, a present tag adds the position to
the exclusion set of the guessed letter, and an absent tag adds the guessed
letter to the absent set; the five positions of one evaluation are processed
within the single call, before any further query, and the candidate list is
not touched. -/
theorem c5_record_evaluation_characterization (s : Solver) (g : Word)
    (ev : List Tag) (h5 : s.correct_letters.length = 5) :
    (∀ j, j < 5 →
        (recordEvaluation s g ev).correct_letters.getD j none
          = if ev.getD j Tag.absent = Tag.correct then some (g.getD j ' ')
            else s.correct_letters.getD j none)
      ∧ (∀ c, c ∈ (recordEvaluation s g ev).absent_letters
          ↔ c ∈ s.absent_letters
              ∨ ∃ i, i < 5 ∧ ev.getD i Tag.absent = Tag.absent
                  ∧ g.getD i ' ' = c)
      ∧ (∀ c j, j ∈ exclOf (recordEvaluation s g ev).present_letters c
          ↔ j ∈ exclOf s.present_letters c
              ∨ (j < 5 ∧ ev.getD j Tag.absent = Tag.present
                  ∧ g.getD j ' ' = c))
      ∧ (recordEvaluation s g ev).words = s.words := by
  refine ⟨?_, ?_, ?_, recordAux_words g ev (List.range 5) s⟩
  · intro j hj
    rw [recordEvaluation, recordAux_correct_getD]
    by_cases hc : ev.getD j Tag.absent = Tag.correct <;>
      simp [hc, List.mem_range, hj, h5]
  · intro c
    rw [recordEvaluation, recordAux_absent_mem]
    simp only [List.mem_range]
  · intro c j
    rw [recordEvaluation, recordAux_excl_mem]
    simp only [List.mem_range]
    constructor
    · rintro (h | ⟨i, hi, ht, hgc, rfl⟩)
      · exact Or.inl h
      · exact Or.inr ⟨hi, ht, hgc.symm⟩
    · rintro (h | ⟨hj, ht, hgc⟩)
      · exact Or.inl h
      · exact Or.inr ⟨j, hj, ht, hgc.symm, rfl⟩

/-- C5 witness: on the sample state, recording one concrete evaluation
leaves the candidate list untouched. -/
theorem c5_record_evaluation_characterization_witness :
    (recordEvaluation sampleSolver ['a','b','c','d','e'] corrFirstTags).words
      = sampleSolver.words :=
  (c5_record_evaluation_characterization sampleSolver ['a','b','c','d','e']
    corrFirstTags (by decide)).2.2.2

theorem evalAgainst_getD (word g : Word) (i : Nat) (hi : i < 5) :
    (evalAgainst word g).getD i Tag.absent
      = if g.getD i ' ' = word.getD i ' ' then Tag.correct
        else if g.getD i ' ' ∈ word then Tag.present else Tag.absent := by
  rw [evalAgainst, List.getD_eq_getElem?_getD, List.getElem?_map,
    List.getElem?_range hi]
  rfl

/-- C8 amended: for evaluation sequences derived from the ground truth
comparator against a fixed target word, as in solve_word, a confirmed
position once set is never overwritten with a different letter: recording
one further ground truth evaluation leaves every already set confirmed
position unchanged, and the agreement of the confirmed letters with the
target is preserved, so the invariant persists along every such sequence. -/
theorem c8_amended_ground_truth_stable (s : Solver) (word g : Word)
    (h5 : s.correct_letters.length = 5)
    (hcons : ∀ i, i < 5 →
      s.correct_letters.getD i none = none
        ∨ s.correct_letters.getD i none = some (word.getD i ' ')) :
    (∀ j, j < 5 → s.correct_letters.getD j none ≠ none →
        (recordEvaluation s g (evalAgainst word g)).correct_letters.getD j none
          = s.correct_letters.getD j none)
      ∧ ∀ i, i < 5 →
          (recordEvaluation s g (evalAgainst word g)).correct_letters.getD i none
              = none
            ∨ (recordEvaluation s g (evalAgainst word g)).correct_letters.getD i none
                = some (word.getD i ' ') := by
  have key : ∀ j, j < 5 →
      (recordEvaluation s g (evalAgainst word g)).correct_letters.getD j none
        = if (evalAgainst word g).getD j Tag.absent = Tag.correct
          then some (g.getD j ' ') else s.correct_letters.getD j none := by
    intro j hj
    rw [recordEvaluation, recordAux_correct_getD]
    by_cases hc : (evalAgainst word g).getD j Tag.absent = Tag.correct <;>
      simp [hc, List.mem_range, hj, h5]
  constructor
  · intro j hj hset
    rw [key j hj, evalAgainst_getD word g j hj]
    by_cases he : g.getD j ' ' = word.getD j ' '
    · rcases hcons j hj with h | h
      · exact absurd h hset
      · rw [if_pos he, if_pos rfl, h, he]
    · rw [if_neg he]
      by_cases hm : g.getD j ' ' ∈ word
      · rw [if_pos hm, if_neg (show ¬ (Tag.present = Tag.correct) by decide)]
      · rw [if_neg hm, if_neg (show ¬ (Tag.absent = Tag.correct) by decide)]
  · intro i hi
    rw [key i hi, evalAgainst_getD word g i hi]
    by_cases he : g.getD i ' ' = word.getD i ' '
    · rw [if_pos he, if_pos rfl, he]
      exact Or.inr rfl
    · rw [if_neg he]
      by_cases hm : g.getD i ' ' ∈ word
      · rw [if_pos hm, if_neg (show ¬ (Tag.present = Tag.correct) by decide)]
        exact hcons i hi
      · rw [if_neg hm, if_neg (show ¬ (Tag.absent = Tag.correct) by decide)]
        exact hcons i hi

/-- C8 amended witness: recording the ground truth evaluation of the guess
zzzzz against the target abcde leaves the set first position unchanged. -/
theorem c8_amended_ground_truth_stable_witness :
    (recordEvaluation c9Solver ['z','z','z','z','z']
        (evalAgainst ['a','b','c','d','e'] ['z','z','z','z','z'])).correct_letters.getD 0 none
      = c9Solver.correct_letters.getD 0 none :=
  (c8_amended_ground_truth_stable c9Solver ['a','b','c','d','e']
    ['z','z','z','z','z'] (by decide) (by decide)).1 0 (by decide) (by decide)

theorem foldl_present_sub (w : Word) (pl : List (Char × List Nat)) (a : Int) :
    pl.foldl (fun weight p => if p.1 ∈ w then weight - 1 else weight) a
      = a - ((pl.map Prod.fst).filter (fun c => decide (c ∈ w))).length := by
  induction pl generalizing a with
  | nil => simp
  | cons p tl ih =>
    rw [List.foldl_cons, ih, List.map_cons, List.filter_cons]
    by_cases h : p.1 ∈ w
    · rw [if_pos h, if_pos (show decide (p.1 ∈ w) = true by simp [h]),
        List.length_cons]
      push_cast
      ring
    · rw [if_neg h, if_neg (show ¬ decide (p.1 ∈ w) = true by simp [h])]

theorem get_word_weight_eq (s : Solver) (w : Word) :
    get_word_weight s w
      = ((lev w (padded s.correct_letters) : Nat) : Int)
        - ((s.present_letters.map Prod.fst).filter
            (fun c => decide (c ∈ w))).length := by
  rw [get_word_weight, foldl_present_sub]

theorem lev_nil_left (ys : Word) : lev [] ys = ys.length := by
  induction ys with
  | nil => simp [lev]
  | cons y ys ih =>
    rw [lev, levenshtein_nil_cons]
    rw [lev] at ih
    simp [ih, Nat.add_comm]

theorem lev_nil_right (xs : Word) : lev xs [] = xs.length := by
  induction xs with
  | nil => simp [lev]
  | cons x xs ih =>
    rw [lev, levenshtein_cons_nil]
    rw [lev] at ih
    simp [ih, Nat.add_comm]

theorem lev_cons_cons (a : Char) (xs : Word) (b : Char) (ys : Word) :
    lev (a :: xs) (b :: ys)
      = min (1 + lev xs (b :: ys))
          (min (1 + lev (a :: xs) ys)
            ((if a = b then 0 else 1) + lev xs ys)) := by
  rw [lev, levenshtein_cons_cons]
  simp [lev]

/-- C3: for every word and every solver state whose present letter keys are
distinct, as the keys of a Python dict always are, the weight equals the
Levenshtein edit distance between the word and the confirmed array padded
with the placeholder character at unknown positions, minus one for each
distinct letter among the presentExclusions keys that occurs anywhere in the
word; the accompanying base cases and recurrence confirm that lev is the
standard unit cost edit distance built from insertions, deletions and
substitutions. -/
theorem c3_weight_formula (s : Solver) (w : Word)
    (hnd : (s.present_letters.map Prod.fst).Nodup) :
    get_word_weight s w
        = ((levenshtein Levenshtein.defaultCost w
              (padded s.correct_letters) : Nat) : Int)
          - (((s.present_letters.map Prod.fst).dedup.filter
                (fun c => decide (c ∈ w))).length : Int)
      ∧ (∀ ys : Word, lev [] ys = ys.length)
      ∧ (∀ xs : Word, lev xs [] = xs.length)
      ∧ (∀ (a : Char) (xs : Word) (b : Char) (ys : Word),
          lev (a :: xs) (b :: ys)
            = min (1 + lev xs (b :: ys))
                (min (1 + lev (a :: xs) ys)
                  ((if a = b then 0 else 1) + lev xs ys))) := by
  refine ⟨?_, lev_nil_left, lev_nil_right, lev_cons_cons⟩
  rw [List.dedup_eq_self.mpr hnd, get_word_weight_eq]
  rfl

/-- C3 witness: the distance base case instantiated through the theorem on
the sample state. -/
theorem c3_weight_formula_witness : lev [] ['a'] = 1 := by
  have h := (c3_weight_formula sampleSolver ['a'] (by decide)).2.1 ['a']
  simpa using h

theorem mem_buildExclude (s : Solver) (i : Nat) (c : Char) :
    c ∈ buildExclude s i
      ↔ (∃ e ∈ s.present_letters, e.1 = c ∧ i ∈ e.2)
          ∨ c ∈ s.absent_letters := by
  simp only [buildExclude, List.mem_append, List.mem_map, List.mem_filter]
  constructor
  · rintro (⟨e, ⟨he, hi⟩, rfl⟩ | h)
    · exact Or.inl ⟨e, he, rfl, by simpa using hi⟩
    · exact Or.inr h
  · rintro (⟨e, he, rfl, hi⟩ | h)
    · exact Or.inl ⟨e, ⟨he, by simpa using hi⟩, rfl⟩
    · exact Or.inr h

theorem posMatch_iff (s : Solver) (i : Nat) (c : Char)
    (hlc : isLowerAlpha c = true) :
    posMatch s i c = true
      ↔ (s.correct_letters.getD i none ≠ none →
            s.correct_letters.getD i none = some c)
        ∧ (s.correct_letters.getD i none = none →
            c ∉ s.absent_letters
              ∧ ¬ ∃ e ∈ s.present_letters, e.1 = c ∧ i ∈ e.2) := by
  cases hco : s.correct_letters.getD i none with
  | some d =>
    simp only [posMatch, hco, beq_iff_eq]
    constructor
    · rintro rfl
      exact ⟨fun _ => rfl, fun hn => by cases hn⟩
    · rintro ⟨h1, -⟩
      have h2 := h1 (by simp)
      injection h2 with h2
      exact h2.symm
  | none =>
    simp only [posMatch, hco]
    by_cases hex : (buildExclude s i).isEmpty
    · rw [if_pos hex]
      have hbe : buildExclude s i = [] := List.isEmpty_iff.mp hex
      constructor
      · intro _
        refine ⟨fun hn => absurd rfl hn, fun _ => ⟨?_, ?_⟩⟩
        · intro hmem
          have hm2 : c ∈ buildExclude s i :=
            (mem_buildExclude s i c).mpr (Or.inr hmem)
          rw [hbe] at hm2
          cases hm2
        · rintro ⟨e, he, rfl, hi⟩
          have hm2 : e.1 ∈ buildExclude s i :=
            (mem_buildExclude s i e.1).mpr (Or.inl ⟨e, he, rfl, hi⟩)
          rw [hbe] at hm2
          cases hm2
      · intro _
        exact hlc
    · rw [if_neg hex]
      constructor
      · intro h
        have hc : c ∉ buildExclude s i := by simpa using h
        rw [mem_buildExclude, not_or] at hc
        exact ⟨fun hn => absurd rfl hn, fun _ => ⟨hc.2, hc.1⟩⟩
      · rintro ⟨-, h2⟩
        obtain ⟨habs, hpres⟩ := h2 (by trivial)
        have hc : c ∉ buildExclude s i := by
          rw [mem_buildExclude]
          rintro (h | h)
          · exact hpres h
          · exact habs h
        simpa using hc

theorem getD_mem_of_lt {w : Word} {i : Nat} (h : i < w.length) :
    w.getD i ' ' ∈ w := by
  rw [List.getD_eq_getElem w ' ' h]
  exact List.getElem_mem h

/-- C4: for a five letter lowercase word, the matcher built from the
knowledge accepts the word exactly when at every position either the
confirmed letter is set and the word carries that letter there, or no letter
is confirmed there and the letter of the word is neither absent nor excluded
at that position through presentExclusions; moreover, when some unconfirmed
position excludes every lowercase letter, filtering a candidate list of five
letter lowercase words yields the empty list instead of failing. -/
theorem c4_matcher_characterization (s : Solver) (w : Word)
    (hlen : w.length = 5) (hlc : ∀ c ∈ w, isLowerAlpha c = true) :
    (wordMatches s w = true
      ↔ ∀ i, i < 5 →
          (s.correct_letters.getD i none ≠ none →
              s.correct_letters.getD i none = some (w.getD i ' '))
            ∧ (s.correct_letters.getD i none = none →
                w.getD i ' ' ∉ s.absent_letters
                  ∧ ¬ ∃ e ∈ s.present_letters,
                      e.1 = w.getD i ' ' ∧ i ∈ e.2))
      ∧ ((∃ i, i < 5 ∧ s.correct_letters.getD i none = none
            ∧ ∀ c, isLowerAlpha c = true → c ∈ buildExclude s i) →
          (∀ p ∈ s.words, p.1.length = 5
              ∧ ∀ c ∈ p.1, isLowerAlpha c = true) →
          (update_word_weights s).words = []) := by
  constructor
  · rw [wordMatches, List.all_eq_true]
    simp only [List.mem_range]
    constructor
    · intro h i hi
      exact (posMatch_iff s i _ (hlc _ (getD_mem_of_lt (hlen ▸ hi)))).mp (h i hi)
    · intro h i hi
      exact (posMatch_iff s i _ (hlc _ (getD_mem_of_lt (hlen ▸ hi)))).mpr (h i hi)
  · rintro ⟨i0, hi0, hnone, hall⟩ hws
    have hfil : s.words.filter (fun p => wordMatches s p.1) = [] := by
      rw [List.filter_eq_nil_iff]
      intro p hp hm
      obtain ⟨hl5, hlcp⟩ := hws p hp
      rw [wordMatches, List.all_eq_true] at hm
      have hpos := hm i0 (by simpa using hi0)
      have hmem : p.1.getD i0 ' ' ∈ buildExclude s i0 :=
        hall _ (hlcp _ (getD_mem_of_lt (hl5 ▸ hi0)))
      simp only [posMatch, hnone] at hpos
      have hne : ¬ (buildExclude s i0).isEmpty = true := by
        intro h
        rw [List.isEmpty_iff.mp h] at hmem
        cases hmem
      rw [if_neg hne] at hpos
      have : p.1.getD i0 ' ' ∉ buildExclude s i0 := by simpa using hpos
      exact this hmem
    simp only [update_word_weights]
    rw [hfil]
    rfl

/-- C4 witness: the empty knowledge matcher accepts the concrete lowercase
word abcde. -/
theorem c4_matcher_characterization_witness :
    wordMatches sampleSolver ['a','b','c','d','e'] = true :=
  (c4_matcher_characterization sampleSolver ['a','b','c','d','e'] (by decide)
    (by decide)).1.mpr (by decide)

theorem count_le_lev (c : Char) (w pad : Word) (hc : c ∉ w) :
    pad.count c ≤ lev w pad := by
  induction w generalizing pad with
  | nil =>
    rw [lev_nil_left]
    exact List.count_le_length c pad
  | cons a xs ih =>
    have hcx : c ∉ xs := fun h => hc (List.mem_cons_of_mem a h)
    have hca : a ≠ c := fun h => hc (h ▸ List.mem_cons_self a xs)
    induction pad with
    | nil => simp
    | cons b ys ih2 =>
      rw [lev_cons_cons]
      refine le_min ?_ (le_min ?_ ?_)
      · exact le_trans (ih (b :: ys) hcx) (Nat.le_add_left _ 1)
      · have h2 := ih2
        rw [List.count_cons]
        split <;> omega
      · have hxy := ih ys hcx
        by_cases hbc : b = c
        · subst hbc
          have hab : ¬ a = b := fun h => hca h
          rw [if_neg hab, List.count_cons_self]
          omega
        · rw [List.count_cons_of_ne (fun h => hbc h.symm)]
          split <;> omega

theorem lev_le_count_pad (t pad : Word)
    (h : List.Forall₂ (fun tc pc => pc ≠ '0' → pc = tc) t pad) :
    lev t pad ≤ pad.count '0' := by
  induction h with
  | nil => simp [lev_nil_left]
  | @cons a b t2 pad2 hab htl ih =>
    rw [lev_cons_cons]
    refine le_trans (min_le_right _ _) (le_trans (min_le_right _ _) ?_)
    by_cases hb : b = '0'
    · subst hb
      rw [List.count_cons_self]
      have hif : (if a = ('0' : Char) then 0 else 1) ≤ 1 := by split <;> omega
      have hif2 : (if a = ('0' : Char) then 0 else 1)
          = (if ('0' : Char) = a then 0 else 1) := by
        by_cases h0 : a = '0'
        · rw [if_pos h0, if_pos h0.symm]
        · rw [if_neg h0, if_neg (fun h2 => h0 h2.symm)]
      rw [hif2] at hif
      omega
    · have hba : b = a := hab hb
      rw [List.count_cons_of_ne (fun h2 => hb h2.symm), if_pos hba.symm]
      omega

theorem forall2_of_pointwise {t : Word} {cl : List (Option Char)}
    (hlen : t.length = cl.length)
    (hp : ∀ i, i < cl.length →
      cl.getD i none = none ∨ cl.getD i none = some (t.getD i ' ')) :
    List.Forall₂ (fun tc pc => pc ≠ '0' → pc = tc) t (padded cl) := by
  rw [List.forall₂_iff_get]
  constructor
  · simp [padded, hlen]
  · intro i h1 h2
    intro hne
    have hcl : i < cl.length := by simpa [padded] using h2
    have ht : i < t.length := h1
    rcases hp i hcl with h | h
    · exfalso
      apply hne
      rw [List.getD_eq_getElem cl none hcl] at h
      simp [padded, List.get_eq_getElem, List.getElem_map, h]
    · rw [List.getD_eq_getElem cl none hcl,
        List.getD_eq_getElem t ' ' ht] at h
      simp [padded, List.get_eq_getElem, List.getElem_map, h]

/-- C9: for every knowledge state consistent with the true target word, in
the sense that every confirmed letter agrees with the target, every present
letter key occurs in the target, and no letter of the target is recorded
absent, and for every lowercase word that differs from the target at some
confirmed position, the weight of the target is at most the weight of that
word. -/
theorem c9_target_weight_minimal (s : Solver) (t w : Word)
    (ht5 : t.length = 5) (h5 : s.correct_letters.length = 5)
    (hcons : ∀ i, i < 5 →
      s.correct_letters.getD i none = none
        ∨ s.correct_letters.getD i none = some (t.getD i ' '))
    (hkeys : ∀ e ∈ s.present_letters, e.1 ∈ t)
    (habs : ∀ c ∈ t, c ∉ s.absent_letters)
    (hwlc : ∀ c ∈ w, isLowerAlpha c = true)
    (i : Nat) (hi : i < 5)
    (hset : s.correct_letters.getD i none ≠ none)
    (hdiff : s.correct_letters.getD i none ≠ some (w.getD i ' ')) :
    get_word_weight s t ≤ get_word_weight s w := by
  rw [get_word_weight_eq, get_word_weight_eq]
  have h0w : '0' ∉ w := by
    intro h
    have := hwlc '0' h
    exact absurd this (by decide)
  have hlev : lev t (padded s.correct_letters)
      ≤ lev w (padded s.correct_letters) := by
    have h1 : lev t (padded s.correct_letters)
        ≤ (padded s.correct_letters).count '0' :=
      lev_le_count_pad t _
        (forall2_of_pointwise (ht5.trans h5.symm)
          (fun j hj => hcons j (h5 ▸ hj)))
    have h2 : (padded s.correct_letters).count '0'
        ≤ lev w (padded s.correct_letters) :=
      count_le_lev '0' w _ h0w
    omega
  have hP : ((s.present_letters.map Prod.fst).filter
        (fun c => decide (c ∈ w))).length
      ≤ ((s.present_letters.map Prod.fst).filter
        (fun c => decide (c ∈ t))).length := by
    have heq : (s.present_letters.map Prod.fst).filter
        (fun c => decide (c ∈ t)) = s.present_letters.map Prod.fst := by
      rw [List.filter_eq_self]
      intro a ha
      rw [List.mem_map] at ha
      obtain ⟨e, he, rfl⟩ := ha
      simpa using hkeys e he
    rw [heq]
    exact List.length_filter_le _ _
  omega

/-- C9 witness: on the concrete consistent state, the target abcde weighs no
more than the word bbbbb, which differs from it at the confirmed first
position. -/
theorem c9_target_weight_minimal_witness :
    get_word_weight c9Solver ['a','b','c','d','e']
      ≤ get_word_weight c9Solver ['b','b','b','b','b'] :=
  c9_target_weight_minimal c9Solver ['a','b','c','d','e'] ['b','b','b','b','b']
    (by decide) (by decide) (by decide) (by decide) (by decide) (by decide)
    0 (by decide) (by decide) (by decide)

end WordleSolver
